import Mathlib

/-!
Verification development for the pyro build planner
(`src/pyro/PapyrusProject.py` and collaborators).

Paths are modelled as Lean strings over the POSIX separator, and the
`os.path` primitives used by the planner (`join`, `normpath`, `basename`,
`splitext`) are embedded faithfully from CPython's posixpath algorithms.
Python's `str.casefold` is modelled as ASCII lowercasing, `str.startswith`
and `str.endswith` as list prefix and suffix tests, and `dict` as an
association list with insertion-order semantics (updating an existing key
keeps its position, a new key is appended).  File-system state (`isfile`,
`isdir`, `getmtime`) and the pex-header reader are passed in as explicit
functions, so every embedded operation is an executable, pure function of
the descriptor data plus a file-system snapshot.
-/

namespace Pyro

/-- ASCII lowercasing of one character, the model of Python case folding. -/
def foldChar (c : Char) : Char :=
  if 65 ≤ c.toNat ∧ c.toNat ≤ 90 then Char.ofNat (c.toNat + 32) else c

/-- Model of Python `str.casefold` (ASCII lowercasing). -/
def casefold (s : String) : String :=
  String.mk (s.data.map foldChar)

/-- Model of Python `str.startswith`. -/
def strStartsWith (s pre : String) : Bool :=
  pre.data.isPrefixOf s.data

/-- Model of Python `str.endswith`. -/
def strEndsWith (s suf : String) : Bool :=
  suf.data.isSuffixOf s.data

/-- A POSIX path is absolute when it starts with the separator. -/
def isAbs (s : String) : Bool :=
  match s.data with
  | [] => false
  | c :: _ => c = '/'

/-- Model of POSIX `os.path.join` for two components. -/
def osJoin (a b : String) : String :=
  if isAbs b then b
  else if a = "" then b
  else if strEndsWith a "/" then a ++ b
  else a ++ "/" ++ b

/-- One folding step of POSIX `os.path.normpath` over path components. -/
def normComp (initialSlashes : Nat) (acc : List String) (comp : String) : List String :=
  if comp = "" ∨ comp = "." then acc
  else if comp ≠ ".." ∨ (initialSlashes = 0 ∧ acc = []) ∨ acc.getLast? = some ".." then
    acc ++ [comp]
  else if acc = [] then acc
  else acc.dropLast

/-- Split a character list at every separator, keeping empty chunks, the
model of Python `str.split` with a single-character separator. -/
def splitCharsAux : List Char → List Char → List (List Char)
  | [], cur => [cur.reverse]
  | c :: rest, cur =>
    if c = '/' then cur.reverse :: splitCharsAux rest [] else splitCharsAux rest (c :: cur)

/-- Split a path on the separator. -/
def splitSlash (s : String) : List String :=
  (splitCharsAux s.data []).map String.mk

/-- Model of POSIX `os.path.normpath`. -/
def normpath (p : String) : String :=
  if p = "" then "."
  else
    let initialSlashes : Nat :=
      if strStartsWith p "//" ∧ ¬ strStartsWith p "///" then 2
      else if strStartsWith p "/" then 1 else 0
    let comps := (splitSlash p).foldl (normComp initialSlashes) []
    let joined := String.mk (List.replicate initialSlashes '/') ++ String.intercalate "/" comps
    if joined = "" then "." else joined

/-- Model of POSIX `os.path.basename`: everything after the last separator. -/
def basename (p : String) : String :=
  (splitSlash p).getLastD ""

/-- Index of the last occurrence of a dot in a character list. -/
def lastDotIdx (ds : List Char) : Option Nat :=
  match ds.reverse.findIdx? (fun c => c = '.') with
  | none => none
  | some k => some (ds.length - 1 - k)

/-- Root of `os.path.splitext` applied to a bare file name: cut at the last
dot unless every character before it is a dot (leading dots do not start an
extension). -/
def splitextRoot (b : String) : String :=
  match lastDotIdx b.data with
  | none => b
  | some i =>
    if (b.data.take i).all (fun c => c = '.') then b
    else String.mk (b.data.take i)

/-- The `script_name` computed in `_try_exclude_unmodified_scripts`:
`os.path.splitext(os.path.basename(script_path))[0]`. -/
def scriptNameOf (path : String) : String :=
  splitextRoot (basename path)

/-- Replacement loop for Python `str.replace`, with fuel for termination. -/
def replaceAllGo (pat rep : List Char) : List Char → Nat → List Char
  | s, 0 => s
  | [], _ => []
  | c :: rest, Nat.succ fuel =>
    if pat.isPrefixOf (c :: rest) then rep ++ replaceAllGo pat rep ((c :: rest).drop pat.length) fuel
    else c :: replaceAllGo pat rep rest fuel

/-- Model of Python `str.replace` (all occurrences, left to right,
non-overlapping); the planner only calls it with a non-empty pattern. -/
def strReplace (s pat rep : String) : String :=
  if pat = "" then s
  else String.mk (replaceAllGo pat.data rep.data s.data s.data.length)

/-- Keys of a Python-dict association list. -/
def dictKeys (d : List (String × String)) : List String :=
  d.map Prod.fst

/-- Model of Python `dict` item assignment: updating an existing key keeps
its position, a new key is appended. -/
def dictInsert (k v : String) : List (String × String) → List (String × String)
  | [] => [(k, v)]
  | (k', v') :: rest => if k' = k then (k, v) :: rest else (k', v') :: dictInsert k v rest

/-- Game families; the planner only ever compares against `FO4`. -/
inductive GameType
  | FO4
  | SSE
  | TES5
deriving DecidableEq

/-- Embeds `PapyrusProject._can_remove_folder`: casefold all three paths,
then test that the script path starts with the import path while the import
path joined with the object name is not the script path. -/
def canRemoveFolder (importPath objectName scriptPath : String) : Bool :=
  let ip := casefold importPath
  let obj := casefold objectName
  let sp := casefold scriptPath
  strStartsWith sp ip && (osJoin ip obj != sp)

/-- One command's worth of the pruning loop in `build_commands`: iterate
over `reversed(self.import_paths)` by descending index while removing (via
`list.remove`, first occurrence) every root for which `_can_remove_folder`
holds, exactly as CPython's reversed-list iterator behaves under mutation. -/
def pruneRootsGo (objectName scriptPath : String) : Nat → List String → List String
  | 0, cur => cur
  | Nat.succ i, cur =>
    let x := cur.getD i ""
    let cur' := if canRemoveFolder x objectName scriptPath then cur.erase x else cur
    pruneRootsGo objectName scriptPath i cur'

/-- The import-path pruning performed for one script in `build_commands`. -/
def pruneRoots (objectName scriptPath : String) (importPaths : List String) : List String :=
  pruneRootsGo objectName scriptPath importPaths.length importPaths

/-- Embeds the matching-artifact search in `_try_exclude_unmodified_scripts`:
the first pex path that ends with the script's base file name plus `.pex`,
or the empty string when none matches. -/
def findMatchingPex (pexPaths : List String) (scriptPath : String) : String :=
  match pexPaths.find? (fun p => strEndsWith p (scriptNameOf scriptPath ++ ".pex")) with
  | some p => p
  | none => ""

/-- Loop body of `_try_exclude_unmodified_scripts`, by structural recursion
over the remaining `(object_name, script_path)` items.  The accumulator is
the dict under construction plus the list of unknown-magic warnings. -/
def tryExcludeAux (pexPaths : List String) (isfile : String → Bool)
    (header : String → Option Int) (mtime : String → Int) :
    List (String × String) → List (String × String) → List String →
    List (String × String) × List String
  | [], acc, warns => (acc, warns)
  | (objectName, scriptPath) :: rest, acc, warns =>
    let matchingPath := findMatchingPex pexPaths scriptPath
    if ¬ isfile matchingPath then
      tryExcludeAux pexPaths isfile header mtime rest acc warns
    else
      match header matchingPath with
      | none =>
        tryExcludeAux pexPaths isfile header mtime rest acc (warns ++ [matchingPath])
      | some compiledTime =>
        if mtime scriptPath < compiledTime then
          tryExcludeAux pexPaths isfile header mtime rest acc warns
        else if scriptPath ∈ dictKeys acc then
          tryExcludeAux pexPaths isfile header mtime rest acc warns
        else
          tryExcludeAux pexPaths isfile header mtime rest (dictInsert objectName scriptPath acc) warns

/-- Embeds `PapyrusProject._try_exclude_unmodified_scripts`.  Timestamps are
modelled as integers; the pex header reader (`PexReader.get_header`) is the
explicit function `header`, returning `none` when the magic number is
unrecognized (the `ValueError` branch, which logs a warning).  The source
has no abort path here, so the embedding is a total function. -/
def tryExcludeUnmodifiedScripts (pscPaths : List (String × String)) (pexPaths : List String)
    (isfile : String → Bool) (header : String → Option Int) (mtime : String → Int) :
    List (String × String) × List String :=
  tryExcludeAux pexPaths isfile header mtime pscPaths [] []

/-- Embeds `PapyrusProject._get_pex_paths`: one expected output path per
object name, with the `.psc` extension swapped for `.pex`, de-duplicated
in first-seen order. -/
def getPexPaths (outputPath : String) (pscPaths : List (String × String)) : List String :=
  pscPaths.foldl
    (fun acc kv =>
      let pexPath := osJoin outputPath (strReplace kv.1 ".psc" ".pex")
      if pexPath ∈ acc then acc else acc ++ [pexPath])
    []

/-- Keeps the first of two candidate roots unless the second is strictly
longer, matching a longest-match scan in declaration order. -/
def longerRoot (best : Option String) (r : String) : Option String :=
  match best with
  | none => some r
  | some b => if r.length > b.length then some r else some b

/-- Modelled from the spec: `PathHelper.calculate_relative_object_name` is
not under `src/`; per section 4.3 the object name of an absolute script path
is the remainder after stripping whichever import root is the longest
case-insensitive prefix match, in root order.  When no root matches, the
bare file name is used. -/
def calcObjectName (importPaths : List String) (pscPath : String) : String :=
  let hits := importPaths.filter (fun r => strStartsWith (casefold pscPath) (casefold r ++ "/"))
  match hits.foldl longerRoot none with
  | some r => String.mk (pscPath.data.drop (r.data.length + 1))
  | none => basename pscPath

/-- Loop body of `_find_missing_script_paths` by structural recursion. -/
def findMissingAux (outputPath : String) (importPaths : List String) (isfile : String → Bool) :
    List (String × String) → List (String × String) → List (String × String)
  | [], results => results
  | (objectName, scriptPath) :: rest, results =>
    let pexPath := osJoin outputPath (strReplace objectName ".psc" ".pex")
    if ¬ isfile pexPath ∧ scriptPath ∉ dictKeys results then
      let objectName' := if ¬ isAbs scriptPath then scriptPath else calcObjectName importPaths scriptPath
      findMissingAux outputPath importPaths isfile rest (dictInsert objectName' scriptPath results)
    else
      findMissingAux outputPath importPaths isfile rest results

/-- Embeds `PapyrusProject._find_missing_script_paths`: scripts whose
expected pex artifact does not exist, keyed by a freshly recomputed object
name (note the source's `script_path not in results` tests dict keys). -/
def findMissingScriptPaths (outputPath : String) (importPaths : List String)
    (isfile : String → Bool) (pscPaths : List (String × String)) : List (String × String) :=
  findMissingAux outputPath importPaths isfile pscPaths []

/-- The flags and paths read from `self.options` and `self` by
`build_commands`. -/
structure BuildOptions where
  noIncrementalBuild : Bool
  gameType : GameType
  compilerPath : String
  flagsPath : String
  outputPath : String
  releaseFlag : Bool
  finalFlag : Bool
  optimizeFlag : Bool
deriving DecidableEq

/-- One assembled compiler invocation, as the ordered token record built by
`build_commands` (the final quoting and joining live in `CommandArguments`,
outside the planner; `importsJoined` is the source's own semicolon join). -/
structure Command where
  compilerPath : String
  scriptRef : String
  flagsPath : String
  importsJoined : String
  outputPath : String
  releaseFlag : Bool
  finalFlag : Bool
  optimizeFlag : Bool
deriving DecidableEq

/-- The script-selection prefix of `build_commands`: take every script in
incremental-off mode, otherwise the output of
`_try_exclude_unmodified_scripts`; then add each missing-artifact script
whose object name is not already a key. -/
def selectScripts (opts : BuildOptions) (pscPaths missingScripts : List (String × String))
    (pexPaths : List String) (isfile : String → Bool) (header : String → Option Int)
    (mtime : String → Int) : List (String × String) :=
  let selected :=
    if opts.noIncrementalBuild then pscPaths
    else (tryExcludeUnmodifiedScripts pscPaths pexPaths isfile header mtime).1
  missingScripts.foldl
    (fun acc kv => if kv.1 ∈ dictKeys acc then acc else acc ++ [kv])
    selected

/-- Loop of `build_commands` over the selected scripts.  The state threaded
through is `self.import_paths` itself: the source's local `import_paths`
variable aliases the shared list, so removals persist into later
iterations. -/
def buildCommandsGo (opts : BuildOptions) :
    List (String × String) → List String → List Command → List Command × List String
  | [], cur, cmds => (cmds, cur)
  | (objectName, scriptPath) :: rest, cur, cmds =>
    let objRef := if opts.gameType ≠ GameType.FO4 then scriptPath else objectName
    let cur' := if opts.gameType = GameType.FO4 then pruneRoots objRef scriptPath cur else cur
    let cmd : Command :=
      { compilerPath := opts.compilerPath
        scriptRef := objRef
        flagsPath := opts.flagsPath
        importsJoined := String.intercalate ";" cur'
        outputPath := opts.outputPath
        releaseFlag := opts.gameType = GameType.FO4 && opts.releaseFlag
        finalFlag := opts.gameType = GameType.FO4 && opts.finalFlag
        optimizeFlag := opts.optimizeFlag }
    buildCommandsGo opts rest cur' (cmds ++ [cmd])

/-- Embeds `PapyrusProject.build_commands`: select the scripts, assemble one
command per script while pruning the shared import list in place, and
finally restore `self.import_paths` from the deep copy taken before the
loop.  Returns the command list and the final value of
`self.import_paths`. -/
def buildCommands (opts : BuildOptions) (pscPaths missingScripts : List (String × String))
    (importPaths pexPaths : List String) (isfile : String → Bool)
    (header : String → Option Int) (mtime : String → Int) : List Command × List String :=
  let selected := selectScripts opts pscPaths missingScripts pexPaths isfile header mtime
  let sourceImportPaths := importPaths
  let (cmds, _) := buildCommandsGo opts selected importPaths []
  (cmds, sourceImportPaths)

/-- The reserved characters rejected in variable values by
`_parse_variables`. -/
def reservedChars : List Char := ['!', '#', '^', '&', '*']

/-- Model of Python `str.isalnum` for ASCII: non-empty and every character
alphanumeric. -/
def pyIsAlnum (s : String) : Bool :=
  s ≠ "" && s.data.all Char.isAlphanum

/-- Loop body of the validation pass of `_parse_variables`: empty names or
values are skipped, a non-alphanumeric name or a reserved character in a
value is a fatal error (`sys.exit(1)`), otherwise the pair is stored. -/
def parseVariablesAux : List (String × String) → List (String × String) →
    Except String (List (String × String))
  | [], acc => Except.ok acc
  | (key, value) :: rest, acc =>
    if key = "" ∨ value = "" then parseVariablesAux rest acc
    else if ¬ pyIsAlnum key then
      Except.error ("The name of the variable must be an alphanumeric string: " ++ key)
    else if value.data.any (fun c => reservedChars.contains c) then
      Except.error ("The value of the variable contains a reserved character: " ++ key)
    else parseVariablesAux rest (dictInsert key value acc)

/-- Embeds the declaration-validation loop of
`PapyrusProject._parse_variables`; `Except.error` models `sys.exit(1)`. -/
def parseVariablesChecked (decls : List (String × String)) :
    Except String (List (String × String)) :=
  parseVariablesAux decls []

/-- Boolean test for the error outcome of an `Except` computation. -/
def isErr {ε α : Type} : Except ε α → Bool
  | Except.error _ => true
  | Except.ok _ => false

/-- A fragment of descriptor text in the substitution templating language:
either literal text or one substitution token naming a variable. -/
inductive TItem
  | lit (s : String)
  | ref (name : String)
deriving DecidableEq

/-- A templated value is a sequence of fragments. -/
abbrev TVal := List TItem

/-- Modelled from the spec: `ProjectBase.parse` is not under `src/`; per
section 4.1 it replaces every substitution token in a string by the named
variable's current value from the table (tokens naming unknown variables
are left in place).  One fragment's expansion. -/
def substItem (table : List (String × TVal)) : TItem → TVal
  | TItem.lit s => [TItem.lit s]
  | TItem.ref n =>
    match table.lookup n with
    | some v => v
    | none => [TItem.ref n]

/-- Modelled from the spec: one call to `ProjectBase.parse` on a templated
value, substituting every token simultaneously with current table values. -/
def parseVal (table : List (String × TVal)) (v : TVal) : TVal :=
  (v.map (substItem table)).flatten

/-- First resolution pass of `_parse_variables`: iterate the table in
declaration order, replacing each value by its parse against the table as
it stands at that moment (earlier entries already rewritten, the current
and later entries still raw). -/
def resolvePass : List (String × TVal) → List (String × TVal) → List (String × TVal)
  | done, [] => done
  | done, (k, v) :: todo =>
    let v' := parseVal (done ++ (k, v) :: todo) v
    resolvePass (done ++ [(k, v')]) todo

/-- Second resolution pass of `_parse_variables`: walk the keys in reverse
declaration order, re-parsing each value against the table as it stands. -/
def resolveRevGo : Nat → List (String × TVal) → List (String × TVal)
  | 0, t => t
  | Nat.succ i, t =>
    let kv := t.getD i ("", [])
    resolveRevGo i (t.set i (kv.1, parseVal t kv.2))

/-- The reverse pass over a whole table. -/
def resolveRev (t : List (String × TVal)) : List (String × TVal) :=
  resolveRevGo t.length t

/-- The two-pass resolution scheme of `_parse_variables` applied to a
validated table in declaration order. -/
def twoPassResolve (t : List (String × TVal)) : List (String × TVal) :=
  resolveRev (resolvePass [] t)

/-- A templated value is fully resolved when no substitution token
remains. -/
def noRefs (v : TVal) : Bool :=
  v.all fun
    | TItem.lit _ => true
    | TItem.ref _ => false

/-- The variable names referenced by a templated value. -/
def refsIn (v : TVal) : List String :=
  v.filterMap fun
    | TItem.lit _ => none
    | TItem.ref n => some n

/-- A declaration table references only earlier entries when, scanning in
declaration order with the list of already-seen names, every value's tokens
name only seen variables. -/
def earlierRefsOnly (seen : List String) : List (String × TVal) → Bool
  | [] => true
  | (k, v) :: rest =>
    (refsIn v).all (fun n => decide (n ∈ seen)) && earlierRefsOnly (seen ++ [k]) rest

/-- The URI schemes recognized as remote references
(`PapyrusProject.remote_schemas`). -/
def remoteSchemas : List String := ["https:", "http:"]

/-- Case-insensitive remote-reference test, the planner's use of
`Comparators.startswith(text, remote_schemas, ignorecase=True)`. -/
def isRemoteText (s : String) : Bool :=
  remoteSchemas.any (fun p => strStartsWith (casefold s) (casefold p))

/-- Modelled from the spec: `PathHelper.uniqify` is not under `src/`; per
sections 3 and 4.2 the root list is de-duplicated case-insensitively while
retaining first-seen order. -/
def uniqify (paths : List String) : List String :=
  paths.foldl
    (fun acc p => if acc.any (fun q => casefold q = casefold p) then acc else acc ++ [p])
    []

/-- Loop body of `_get_implicit_folder_imports`: normalize each folder
node's text, and collect it (absolute, or resolved against the project
directory) when it is an existing directory not already among the import
paths.  Both membership tests in the source are case-sensitive. -/
def implicitFolderAux (projectPath : String) (isdir : String → Bool)
    (importPaths : List String) : List String → List String → List String
  | [], acc => acc
  | text :: rest, acc =>
    let folderPath := normpath text
    if isAbs folderPath then
      if isdir folderPath ∧ folderPath ∉ importPaths then
        implicitFolderAux projectPath isdir importPaths rest (acc ++ [folderPath])
      else
        implicitFolderAux projectPath isdir importPaths rest acc
    else
      let testPath := osJoin projectPath folderPath
      if isdir testPath ∧ testPath ∉ importPaths then
        implicitFolderAux projectPath isdir importPaths rest (acc ++ [testPath])
      else
        implicitFolderAux projectPath isdir importPaths rest acc

/-- Embeds `PapyrusProject._get_implicit_folder_imports`. -/
def getImplicitFolderImports (projectPath : String) (isdir : String → Bool)
    (importPaths : List String) (folderNodes : List String) : List String :=
  uniqify (implicitFolderAux projectPath isdir importPaths folderNodes [])

/-- The effect of `_get_script_paths_from_folders_node` on the shared
`self.import_paths` list: parent-directory and current-directory folder
texts leave it unchanged, a remote folder text has its fetched local path
inserted at index 0 with no duplicate check, and every other branch only
yields script paths.  The fetched local path of `_get_remote_path` is the
explicit function `remoteLocal`. -/
def foldersNodeImportEffect (remoteLocal : String → String) :
    List String → List String → List String
  | [], cur => cur
  | text :: rest, cur =>
    if text = ".." then foldersNodeImportEffect remoteLocal rest cur
    else if text = "." then foldersNodeImportEffect remoteLocal rest cur
    else if isRemoteText text then foldersNodeImportEffect remoteLocal rest (remoteLocal text :: cur)
    else foldersNodeImportEffect remoteLocal rest cur

/-- Outcome of processing one Import node in `_get_import_paths`. -/
inductive ImportStep
  | remote (localPath : String)
  | skipWarn
  | okDir (path : String)
  | fatal (path : String)
deriving DecidableEq

/-- Embeds the loop body of `PapyrusProject._get_import_paths` for one
Import node: remote references are fetched (their local cache path is the
explicit function `remoteLocal`), a normalized text equal to the
parent-directory token is skipped with a warning, the current-directory
token becomes the project directory, relative paths resolve against the
project directory, and the resulting path must be an existing directory or
the build fails fatally. -/
def stepImport (projectPath : String) (isdir : String → Bool)
    (remoteLocal : String → String) (text : String) : ImportStep :=
  if isRemoteText text then ImportStep.remote (remoteLocal text)
  else
    let p := normpath text
    if p = ".." then ImportStep.skipWarn
    else
      let p' :=
        if p = "." then projectPath
        else if ¬ isAbs p then normpath (osJoin projectPath p)
        else p
      if isdir p' then ImportStep.okDir p' else ImportStep.fatal p'

/-- Loop of `_get_import_paths` over all Import nodes, accumulating results
and stopping fatally (`sys.exit(1)`) at the first missing directory. -/
def getImportPathsAux (projectPath : String) (isdir : String → Bool)
    (remoteLocal : String → String) : List String → List String → Except String (List String)
  | [], acc => Except.ok (uniqify acc)
  | text :: rest, acc =>
    match stepImport projectPath isdir remoteLocal text with
    | ImportStep.remote lp => getImportPathsAux projectPath isdir remoteLocal rest (acc ++ [lp])
    | ImportStep.skipWarn => getImportPathsAux projectPath isdir remoteLocal rest acc
    | ImportStep.okDir p => getImportPathsAux projectPath isdir remoteLocal rest (acc ++ [p])
    | ImportStep.fatal p => Except.error ("Import path does not exist: " ++ p)

/-- Embeds `PapyrusProject._get_import_paths` over the Import node texts. -/
def getImportPaths (projectPath : String) (isdir : String → Bool)
    (remoteLocal : String → String) (importNodes : List String) : Except String (List String) :=
  getImportPathsAux projectPath isdir remoteLocal importNodes []

/-! Helper lemmas about the string and path model. -/

theorem foldChar_eq_slash_iff (c : Char) : foldChar c = '/' ↔ c = '/' := by
  constructor
  · intro h
    unfold foldChar at h
    split at h
    · rename_i hc
      exfalso
      have hval : (c.toNat + 32).isValidChar := Or.inl (by omega)
      rw [Char.ofNat, dif_pos hval] at h
      have htn : (Char.ofNatAux (c.toNat + 32) hval).toNat = c.toNat + 32 := rfl
      have h47 : (Char.ofNatAux (c.toNat + 32) hval).toNat = ('/' : Char).toNat :=
        congrArg Char.toNat h
      rw [htn] at h47
      have : ('/' : Char).toNat = 47 := rfl
      omega
    · exact h
  · intro h
    subst h
    decide

theorem isAbs_casefold (s : String) : isAbs (casefold s) = isAbs s := by
  unfold isAbs casefold
  cases s.data with
  | nil => rfl
  | cons c rest =>
    simp only [List.map_cons]
    by_cases h : c = '/'
    · subst h; norm_num [foldChar_eq_slash_iff]
    · have h2 : ¬ foldChar c = '/' := fun hh => h ((foldChar_eq_slash_iff c).mp hh)
      simp [h, h2]

theorem casefold_append (a b : String) : casefold (a ++ b) = casefold a ++ casefold b := by
  unfold casefold
  apply congrArg String.mk
  simp

theorem casefold_eq_empty_iff (a : String) : casefold a = "" ↔ a = "" := by
  unfold casefold
  cases a with
  | mk data =>
    constructor
    · intro h
      have : data.map foldChar = [] := congrArg String.data h
      simp at this
      simp [this]
    · intro h
      have : data = [] := congrArg String.data h
      simp [this]

theorem endsWith_slash_casefold (a : String) : strEndsWith (casefold a) "/" = strEndsWith a "/" := by
  unfold strEndsWith casefold
  show List.isSuffixOf ['/'] (a.data.map foldChar) = List.isSuffixOf ['/'] a.data
  unfold List.isSuffixOf
  rw [← List.map_reverse]
  cases a.data.reverse with
  | nil => rfl
  | cons c rest =>
    show (('/' == foldChar c) && List.isPrefixOf [] (rest.map foldChar)) =
      (('/' == c) && List.isPrefixOf [] rest)
    have hpre : ∀ l : List Char, List.isPrefixOf [] l = true := fun l => by cases l <;> rfl
    rw [hpre, hpre, Bool.and_true, Bool.and_true]
    by_cases h : c = '/'
    · subst h; decide
    · have h2 : foldChar c ≠ '/' := fun hh => h ((foldChar_eq_slash_iff c).mp hh)
      rw [beq_eq_false_iff_ne.mpr fun hh => h2 hh.symm,
        beq_eq_false_iff_ne.mpr fun hh => h hh.symm]

theorem casefold_osJoin (a b : String) :
    casefold (osJoin a b) = osJoin (casefold a) (casefold b) := by
  unfold osJoin
  rw [isAbs_casefold, endsWith_slash_casefold]
  by_cases hb : isAbs b = true
  · rw [if_pos hb, if_pos hb]
  · rw [if_neg hb, if_neg hb]
    by_cases ha : a = ""
    · have ha2 : casefold a = "" := by rw [ha]; rfl
      rw [if_pos ha, if_pos ha2]
    · have ha' : casefold a ≠ "" := fun h => ha ((casefold_eq_empty_iff a).mp h)
      rw [if_neg ha, if_neg ha']
      by_cases hs : strEndsWith a "/" = true
      · rw [if_pos hs, if_pos hs, casefold_append]
      · rw [if_neg hs, if_neg hs, casefold_append, casefold_append]
        rfl

/-! Helper lemmas about the dict model. -/

theorem mem_dictKeys_of_mem {o s : String} {d : List (String × String)} (h : (o, s) ∈ d) :
    o ∈ dictKeys d :=
  List.mem_map_of_mem Prod.fst h

theorem dictKeys_insert_sub {k v x : String} {d : List (String × String)}
    (h : x ∈ dictKeys (dictInsert k v d)) : x = k ∨ x ∈ dictKeys d := by
  induction d with
  | nil => simp [dictInsert, dictKeys] at h; exact Or.inl h
  | cons hd tl ih =>
    obtain ⟨k', v'⟩ := hd
    by_cases hk : k' = k
    · subst hk
      rw [dictInsert, if_pos rfl] at h
      simp only [dictKeys, List.map_cons, List.mem_cons] at h ⊢
      tauto
    · rw [dictInsert, if_neg hk] at h
      simp only [dictKeys, List.map_cons, List.mem_cons] at h ⊢
      rcases h with h | h
      · exact Or.inr (Or.inl h)
      · rcases ih h with h | h
        · exact Or.inl h
        · exact Or.inr (Or.inr h)

theorem mem_dictInsert_of_mem {k v o s : String} {d : List (String × String)}
    (hne : k ≠ o) (h : (o, s) ∈ d) : (o, s) ∈ dictInsert k v d := by
  induction d with
  | nil => simp at h
  | cons hd tl ih =>
    obtain ⟨k', v'⟩ := hd
    rcases List.mem_cons.mp h with h | h
    · injection h with h1 h2
      subst h1
      subst h2
      rw [dictInsert, if_neg (fun hh => hne hh.symm)]
      exact List.mem_cons.mpr (Or.inl rfl)
    · by_cases hk : k' = k
      · rw [dictInsert, if_pos hk]
        exact List.mem_cons.mpr (Or.inr h)
      · rw [dictInsert, if_neg hk]
        exact List.mem_cons.mpr (Or.inr (ih h))

theorem dictInsert_eq_append {k v : String} {d : List (String × String)}
    (h : k ∉ dictKeys d) : dictInsert k v d = d ++ [(k, v)] := by
  induction d with
  | nil => rfl
  | cons hd tl ih =>
    obtain ⟨k', v'⟩ := hd
    simp only [dictKeys, List.map_cons, List.mem_cons, not_or] at h
    rw [dictInsert, if_neg (fun hh => h.1 hh.symm), List.cons_append]
    exact congrArg _ (ih h.2)

/-! Helper lemmas about the incremental-filter loop. -/

theorem tryExcludeAux_keys_sub {pexPaths : List String} {isfile : String → Bool}
    {header : String → Option Int} {mtime : String → Int} :
    ∀ (entries acc : List (String × String)) (warns : List String) (x : String),
      x ∈ dictKeys (tryExcludeAux pexPaths isfile header mtime entries acc warns).1 →
      x ∈ dictKeys acc ∨ x ∈ entries.map Prod.fst := by
  intro entries
  induction entries with
  | nil =>
    intro acc warns x h
    exact Or.inl h
  | cons hd tl ih =>
    intro acc warns x h
    obtain ⟨objectName, scriptPath⟩ := hd
    rw [tryExcludeAux] at h
    simp only [List.map_cons, List.mem_cons]
    split at h
    · rcases ih _ _ _ h with h | h
      · exact Or.inl h
      · exact Or.inr (Or.inr h)
    · split at h
      · rcases ih _ _ _ h with h | h
        · exact Or.inl h
        · exact Or.inr (Or.inr h)
      · split at h
        · rcases ih _ _ _ h with h | h
          · exact Or.inl h
          · exact Or.inr (Or.inr h)
        · split at h
          · rcases ih _ _ _ h with h | h
            · exact Or.inl h
            · exact Or.inr (Or.inr h)
          · rcases ih _ _ _ h with h | h
            · rcases dictKeys_insert_sub h with h | h
              · exact Or.inr (Or.inl h)
              · exact Or.inl h
            · exact Or.inr (Or.inr h)

theorem tryExcludeAux_warns_mono {pexPaths : List String} {isfile : String → Bool}
    {header : String → Option Int} {mtime : String → Int} :
    ∀ (entries acc : List (String × String)) (warns : List String) (w : String),
      w ∈ warns →
      w ∈ (tryExcludeAux pexPaths isfile header mtime entries acc warns).2 := by
  intro entries
  induction entries with
  | nil =>
    intro acc warns w h
    exact h
  | cons hd tl ih =>
    intro acc warns w h
    obtain ⟨objectName, scriptPath⟩ := hd
    rw [tryExcludeAux]
    split
    · exact ih _ _ _ h
    · split
      · exact ih _ _ _ (List.mem_append_left _ h)
      · split
        · exact ih _ _ _ h
        · split
          · exact ih _ _ _ h
          · exact ih _ _ _ h

theorem tryExcludeAux_preserve {pexPaths : List String} {isfile : String → Bool}
    {header : String → Option Int} {mtime : String → Int} :
    ∀ (entries acc : List (String × String)) (warns : List String) (o s : String),
      (o, s) ∈ acc → o ∉ entries.map Prod.fst →
      (o, s) ∈ (tryExcludeAux pexPaths isfile header mtime entries acc warns).1 := by
  intro entries
  induction entries with
  | nil =>
    intro acc warns o s hacc _
    exact hacc
  | cons hd tl ih =>
    intro acc warns o s hacc hkeys
    obtain ⟨objectName, scriptPath⟩ := hd
    simp only [List.map_cons, List.mem_cons, not_or] at hkeys
    rw [tryExcludeAux]
    split
    · exact ih _ _ _ _ hacc hkeys.2
    · split
      · exact ih _ _ _ _ hacc hkeys.2
      · split
        · exact ih _ _ _ _ hacc hkeys.2
        · split
          · exact ih _ _ _ _ hacc hkeys.2
          · exact ih _ _ _ _ (mem_dictInsert_of_mem (fun hh => hkeys.1 hh.symm) hacc) hkeys.2

/-! Claim C7: the pruning predicate. -/

/-- C7: `_can_remove_folder` holds exactly when the casefolded script path
starts with the casefolded import path while the import path joined with
the object name differs (casefolded) from the script path; consequently a
root whose join with the object name reconstructs the script path exactly
is never classified as removable. -/
theorem spec_C7_can_remove_folder (importPath objectName scriptPath : String) :
    (canRemoveFolder importPath objectName scriptPath = true ↔
      (strStartsWith (casefold scriptPath) (casefold importPath) = true ∧
        osJoin (casefold importPath) (casefold objectName) ≠ casefold scriptPath))
    ∧ (osJoin importPath objectName = scriptPath →
        canRemoveFolder importPath objectName scriptPath = false) := by
  constructor
  · unfold canRemoveFolder
    simp [Bool.and_eq_true, bne_iff_ne]
  · intro h
    have hcf : osJoin (casefold importPath) (casefold objectName) = casefold scriptPath := by
      rw [← casefold_osJoin, h]
    unfold canRemoveFolder
    simp [hcf]

/-- Witness for C7 at a concrete resolving root. -/
theorem spec_C7_witness :
    osJoin "/a" "b.psc" = "/a/b.psc" ∧ canRemoveFolder "/a" "b.psc" "/a/b.psc" = false :=
  ⟨by decide, (spec_C7_can_remove_folder "/a" "b.psc" "/a/b.psc").2 (by decide)⟩

/-! Claim C5: unreadable artifact headers. -/

theorem tryExcludeAux_header_none {pexPaths : List String} {isfile : String → Bool}
    {header : String → Option Int} {mtime : String → Int} :
    ∀ (entries acc : List (String × String)) (warns : List String) (o s : String),
      (o, s) ∈ entries → (entries.map Prod.fst).Nodup → o ∉ dictKeys acc →
      isfile (findMatchingPex pexPaths s) = true →
      header (findMatchingPex pexPaths s) = none →
      o ∉ dictKeys (tryExcludeAux pexPaths isfile header mtime entries acc warns).1 ∧
        findMatchingPex pexPaths s ∈ (tryExcludeAux pexPaths isfile header mtime entries acc warns).2 := by
  intro entries
  induction entries with
  | nil =>
    intro acc warns o s hmem
    exact absurd hmem (List.not_mem_nil _)
  | cons hd tl ih =>
    intro acc warns o s hmem hnd hacc hf hh
    obtain ⟨objectName, scriptPath⟩ := hd
    simp only [List.map_cons, List.nodup_cons] at hnd
    rcases List.mem_cons.mp hmem with heq | hmem'
    · injection heq with h1 h2
      subst h1
      subst h2
      rw [tryExcludeAux, if_neg (by rw [hf]; simp), hh]
      constructor
      · intro hcon
        rcases tryExcludeAux_keys_sub _ _ _ _ hcon with hcon | hcon
        · exact hacc hcon
        · exact hnd.1 hcon
      · exact tryExcludeAux_warns_mono _ _ _ _ (List.mem_append_right _ (List.mem_singleton.mpr rfl))
    · have hone : objectName ≠ o := by
        intro hh'
        exact hnd.1 (hh' ▸ List.mem_map_of_mem Prod.fst hmem')
      rw [tryExcludeAux]
      split
      · exact ih _ _ _ _ hmem' hnd.2 hacc hf hh
      · split
        · exact ih _ _ _ _ hmem' hnd.2 hacc hf hh
        · split
          · exact ih _ _ _ _ hmem' hnd.2 hacc hf hh
          · split
            · exact ih _ _ _ _ hmem' hnd.2 hacc hf hh
            · refine ih _ _ _ _ hmem' hnd.2 (fun hcon => ?_) hf hh
              rcases dictKeys_insert_sub hcon with hcon | hcon
              · exact hone hcon.symm
              · exact hacc hcon

/-- C5: when a script's matching artifact exists but its header is
unparseable (`PexReader.get_header` raises, modelled by `header` returning
`none`), `_try_exclude_unmodified_scripts` logs a warning naming that
artifact and does not select the script; the function has no abort path, so
the build continues. -/
theorem spec_C5_unreadable_header (pscPaths : List (String × String)) (pexPaths : List String)
    (isfile : String → Bool) (header : String → Option Int) (mtime : String → Int)
    (objectName scriptPath : String)
    (hmem : (objectName, scriptPath) ∈ pscPaths)
    (hnd : (pscPaths.map Prod.fst).Nodup)
    (hf : isfile (findMatchingPex pexPaths scriptPath) = true)
    (hh : header (findMatchingPex pexPaths scriptPath) = none) :
    objectName ∉
      dictKeys (tryExcludeUnmodifiedScripts pscPaths pexPaths isfile header mtime).1
    ∧ findMatchingPex pexPaths scriptPath ∈
      (tryExcludeUnmodifiedScripts pscPaths pexPaths isfile header mtime).2 :=
  tryExcludeAux_header_none pscPaths [] [] objectName scriptPath hmem hnd
    (List.not_mem_nil _) hf hh

/-- Witness for C5: one script whose artifact exists with a bad magic. -/
theorem spec_C5_witness :
    "obj" ∉
      dictKeys (tryExcludeUnmodifiedScripts [("obj", "/src/foo.psc")] ["/out/foo.pex"]
        (fun _ => true) (fun _ => none) (fun _ => 0)).1
    ∧ findMatchingPex ["/out/foo.pex"] "/src/foo.psc" ∈
      (tryExcludeUnmodifiedScripts [("obj", "/src/foo.psc")] ["/out/foo.pex"]
        (fun _ => true) (fun _ => none) (fun _ => 0)).2 :=
  spec_C5_unreadable_header [("obj", "/src/foo.psc")] ["/out/foo.pex"]
    (fun _ => true) (fun _ => none) (fun _ => 0) "obj" "/src/foo.psc"
    (by decide) (by decide) rfl rfl

/-! Claim C2 (amended): the incremental filter's selection boundary. -/

/-- File-system snapshot for the C2 counterexample: only the artifact
exists. -/
def c2Isfile : String → Bool := fun s => s = "/out/foo.pex"

/-- Header reader for the C2 counterexample: recorded compile time 5. -/
def c2Header : String → Option Int := fun s => if s = "/out/foo.pex" then some 5 else none

/-- Source mtime for the C2 counterexample: equal to the compile time. -/
def c2Mtime : String → Int := fun _ => 5


theorem tryExcludeAux_some_header {pexPaths : List String} {isfile : String → Bool}
    {header : String → Option Int} {mtime : String → Int} :
    ∀ (entries acc : List (String × String)) (warns : List String) (o s : String) (T : Int),
      (o, s) ∈ entries → (entries.map Prod.fst).Nodup →
      (∀ kv ∈ entries, kv.1 ≠ s) →
      (∀ x ∈ dictKeys acc, x ≠ s) →
      o ∉ dictKeys acc →
      isfile (findMatchingPex pexPaths s) = true →
      header (findMatchingPex pexPaths s) = some T →
      ((o, s) ∈ (tryExcludeAux pexPaths isfile header mtime entries acc warns).1 ↔
        T ≤ mtime s) := by
  intro entries
  induction entries with
  | nil =>
    intro acc warns o s T hmem
    exact absurd hmem (List.not_mem_nil _)
  | cons hd tl ih =>
    intro acc warns o s T hmem hnd hpaths haccs hacc hf hh
    obtain ⟨objectName, scriptPath⟩ := hd
    simp only [List.map_cons, List.nodup_cons] at hnd
    have hpaths' : ∀ kv ∈ tl, kv.1 ≠ s := fun kv hkv => hpaths kv (List.mem_cons_of_mem _ hkv)
    rcases List.mem_cons.mp hmem with heq | hmem'
    · injection heq with h1 h2
      subst h1
      subst h2
      rw [tryExcludeAux, if_neg (by rw [hf]; simp)]
      simp only [hh]
      by_cases hlt : mtime s < T
      · rw [if_pos hlt]
        constructor
        · intro hcon
          rcases tryExcludeAux_keys_sub _ _ _ _ (mem_dictKeys_of_mem hcon) with hcon | hcon
          · exact absurd hcon hacc
          · exact absurd hcon hnd.1
        · intro hle
          exact absurd hlt (not_lt.mpr hle)
      · rw [if_neg hlt]
        have hs : s ∉ dictKeys acc := fun hcon => haccs s hcon rfl
        rw [if_neg hs]
        constructor
        · intro _
          exact not_lt.mp hlt
        · intro _
          refine tryExcludeAux_preserve _ _ _ _ _ ?_ hnd.1
          rw [dictInsert_eq_append hacc]
          exact List.mem_append_right _ (List.mem_singleton.mpr rfl)
    · have hone : objectName ≠ o := by
        intro hh'
        exact hnd.1 (hh' ▸ List.mem_map_of_mem Prod.fst hmem')
      rw [tryExcludeAux]
      split
      · exact ih _ _ _ _ _ hmem' hnd.2 hpaths' haccs hacc hf hh
      · split
        · exact ih _ _ _ _ _ hmem' hnd.2 hpaths' haccs hacc hf hh
        · split
          · exact ih _ _ _ _ _ hmem' hnd.2 hpaths' haccs hacc hf hh
          · split
            · exact ih _ _ _ _ _ hmem' hnd.2 hpaths' haccs hacc hf hh
            · refine ih _ _ _ _ _ hmem' hnd.2 hpaths'
                (fun x hx => ?_) (fun hcon => ?_) hf hh
              · rcases dictKeys_insert_sub hx with hx | hx
                · exact hx ▸ hpaths (objectName, scriptPath) (List.mem_cons_self _ _)
                · exact haccs x hx
              · rcases dictKeys_insert_sub hcon with hcon | hcon
                · exact hone hcon.symm
                · exact hacc hcon

/-- C2 (amended): for a script whose basename-matched artifact exists and
has a parseable header with compile time `T`, the incremental filter
selects the script exactly when the source mtime is greater than or equal
to `T` (the source only skips when `mtime < T`, so a source touched at
exactly the recorded compile instant is selected, not skipped).  The side
conditions rule out the source's key-versus-path quirk: object names are
the dict's unique keys and no object name collides with this script's
path. -/
theorem spec_C2_selected_iff (pscPaths : List (String × String)) (pexPaths : List String)
    (isfile : String → Bool) (header : String → Option Int) (mtime : String → Int)
    (objectName scriptPath : String) (T : Int)
    (hmem : (objectName, scriptPath) ∈ pscPaths)
    (hnd : (pscPaths.map Prod.fst).Nodup)
    (hpaths : ∀ kv ∈ pscPaths, kv.1 ≠ scriptPath)
    (hf : isfile (findMatchingPex pexPaths scriptPath) = true)
    (hh : header (findMatchingPex pexPaths scriptPath) = some T) :
    ((objectName, scriptPath) ∈
        (tryExcludeUnmodifiedScripts pscPaths pexPaths isfile header mtime).1 ↔
      T ≤ mtime scriptPath) :=
  tryExcludeAux_some_header pscPaths [] [] objectName scriptPath T hmem hnd hpaths
    (fun x hx => absurd hx (List.not_mem_nil x)) (List.not_mem_nil _) hf hh

/-- Witness for the amended C2 at the boundary `mtime = T`. -/
theorem spec_C2_witness :
    (("obj", "/src/foo.psc") ∈
        (tryExcludeUnmodifiedScripts [("obj", "/src/foo.psc")] ["/out/foo.pex"]
          c2Isfile c2Header c2Mtime).1 ↔
      (5 : Int) ≤ c2Mtime "/src/foo.psc") :=
  spec_C2_selected_iff [("obj", "/src/foo.psc")] ["/out/foo.pex"] c2Isfile c2Header c2Mtime
    "obj" "/src/foo.psc" 5 (by decide) (by decide) (by decide) (by decide) (by decide)

/-! Claim C1: shared import-path list during command assembly. -/

/-- Build options for the C1 evaluation: Fallout 4, incremental filter off. -/
def c1Opts : BuildOptions :=
  { noIncrementalBuild := true, gameType := GameType.FO4, compilerPath := "compiler",
    flagsPath := "flags", outputPath := "/out", releaseFlag := false, finalFlag := false,
    optimizeFlag := false }

/-- Two scripts under root `/a/sub`, which is itself nested under root
`/a`; the first script's object name is relative to `/a`, the second's to
`/a/sub`. -/
def c1Psc : List (String × String) :=
  [("sub/foo.psc", "/a/sub/foo.psc"), ("bar.psc", "/a/sub/bar.psc")]

/-- C1 (code bug): pruning `/a/sub` while assembling the first script's
command leaks into the second script's command, whose import list comes out
empty instead of `/a/sub` — the local `import_paths` variable in
`build_commands` aliases `self.import_paths`, so removals are only undone
after the whole loop, not per script.  Pruning the full list for the second
script alone would keep `/a/sub`, precisely the root that resolves it. -/
theorem spec_C1_shared_pruning_leak :
    ((buildCommands c1Opts c1Psc [] ["/a", "/a/sub"] [] (fun _ => false) (fun _ => none)
        (fun _ => 0)).1.map (fun c => c.importsJoined) = ["/a", ""])
    ∧ pruneRoots "bar.psc" "/a/sub/bar.psc" ["/a", "/a/sub"] = ["/a/sub"]
    ∧ (buildCommands c1Opts c1Psc [] ["/a", "/a/sub"] [] (fun _ => false) (fun _ => none)
        (fun _ => 0)).2 = ["/a", "/a/sub"] := by
  decide

/-! Claim C2: the incremental filter's timestamp boundary. -/

/-- C2 counterexample: with source mtime equal to the recorded compile time
(5 = 5, so not strictly greater), the claim says the script is skipped, but
`_try_exclude_unmodified_scripts` selects it — the source only skips when
`mtime < compiled_time`. -/
theorem spec_C2_counterexample :
    (("obj", "/src/foo.psc") ∈
      (tryExcludeUnmodifiedScripts [("obj", "/src/foo.psc")] ["/out/foo.pex"]
        c2Isfile c2Header c2Mtime).1)
    ∧ c2Header "/out/foo.pex" = some 5
    ∧ ¬ ((5 : Int) < c2Mtime "/src/foo.psc") := by
  decide

/-! Claim C3: order-independence of two-pass variable resolution. -/

/-- An acyclic reference chain A→B→C→D→E (E literal) declared in the order
C, A, D, B, E. -/
def c3TableBad : List (String × TVal) :=
  [("C", [TItem.ref "D"]), ("A", [TItem.ref "B"]), ("D", [TItem.ref "E"]),
   ("B", [TItem.ref "C"]), ("E", [TItem.lit "x"])]

/-- The same bindings declared in the order E, D, C, B, A. -/
def c3TableGood : List (String × TVal) :=
  [("E", [TItem.lit "x"]), ("D", [TItem.ref "E"]), ("C", [TItem.ref "D"]),
   ("B", [TItem.ref "C"]), ("A", [TItem.ref "B"])]

/-- C3 counterexample: the two tables are permutations of one another and
the reference graph is an acyclic chain, yet under the order C, A, D, B, E
the two-pass scheme leaves variable A holding an unresolved substitution
token, while the order E, D, C, B, A resolves A to the literal; so the
final values are neither token-free nor order-independent. -/
theorem spec_C3_counterexample :
    c3TableBad.Perm c3TableGood
    ∧ (twoPassResolve c3TableBad).lookup "A" = some [TItem.ref "E"]
    ∧ (twoPassResolve c3TableGood).lookup "A" = some [TItem.lit "x"]
    ∧ noRefs [TItem.ref "E"] = false := by
  refine ⟨by decide, by decide, by decide, by decide⟩

/-! Claim C4: import-root list discipline. -/

/-- C4 counterexample: a remote Folder node whose fetched local path is
already the sole import root.  `_get_script_paths_from_folders_node`
inserts the local path at index 0 with no duplicate check, so adding an
already-present root changes the list and produces a duplicate, and the
addition is a prepend rather than an append. -/
theorem spec_C4_counterexample :
    foldersNodeImportEffect (fun _ => "/a") ["https://remote.example"] ["/a"] = ["/a", "/a"]
    ∧ ¬ (foldersNodeImportEffect (fun _ => "/a") ["https://remote.example"] ["/a"]).Nodup
    ∧ foldersNodeImportEffect (fun _ => "/a") ["https://remote.example"] ["/a"] ≠ ["/a"] := by
  refine ⟨by decide, by decide, by decide⟩

/-! Claim C6: scripts with no artifact are always selected. -/

/-- Import roots as they stand when `build_commands` runs: the explicit
roots `/a` and `/b` plus `/a/sub`, implicitly added by
`_get_implicit_script_imports` as the parent directory of the second
script. -/
def c6Roots : List String := ["/a", "/b", "/a/sub"]

/-- Two scripts that share the base file name `foo.psc`; object names are
as `_get_psc_paths` computed them against the explicit roots. -/
def c6Psc : List (String × String) :=
  [("foo.psc", "/b/foo.psc"), ("sub/foo.psc", "/a/sub/foo.psc")]

/-- Expected artifact paths for the two scripts. -/
def c6Pex : List String := getPexPaths "/out" c6Psc

/-- Snapshot: only `/b/foo.psc`'s artifact exists; `/a/sub/foo.psc` has
none. -/
def c6Isfile : String → Bool := fun s => s = "/out/foo.pex"

/-- The existing artifact's header carries compile time 10. -/
def c6Header : String → Option Int := fun s => if s = "/out/foo.pex" then some 10 else none

/-- `/b/foo.psc` was touched at the compile instant; `/a/sub/foo.psc` is
older than the other script's artifact. -/
def c6Mtime : String → Int := fun s => if s = "/b/foo.psc" then 10 else 5

/-- Incremental build options for the C6 evaluation. -/
def c6Opts : BuildOptions :=
  { noIncrementalBuild := false, gameType := GameType.FO4, compilerPath := "compiler",
    flagsPath := "flags", outputPath := "/out", releaseFlag := false, finalFlag := false,
    optimizeFlag := false }

/-- C6 (code bug): `/a/sub/foo.psc` has no artifact
(`/out/sub/foo.pex` does not exist), and `_find_missing_script_paths` does
record it — but under the recalculated object name `foo.psc`, which
collides with the key of the already-selected script `/b/foo.psc` (itself
kept by the filter because the basename match compared it against
`/out/foo.pex`).  `build_commands` therefore drops the artifact-less script
from the selection: no command is emitted for `/a/sub/foo.psc`. -/
theorem spec_C6_missing_artifact_dropped :
    c6Isfile (osJoin "/out" (strReplace "sub/foo.psc" ".psc" ".pex")) = false
    ∧ findMissingScriptPaths "/out" c6Roots c6Isfile c6Psc = [("foo.psc", "/a/sub/foo.psc")]
    ∧ selectScripts c6Opts c6Psc (findMissingScriptPaths "/out" c6Roots c6Isfile c6Psc)
        c6Pex c6Isfile c6Header c6Mtime = [("foo.psc", "/b/foo.psc")]
    ∧ ¬ ("/a/sub/foo.psc" ∈
        (selectScripts c6Opts c6Psc (findMissingScriptPaths "/out" c6Roots c6Isfile c6Psc)
          c6Pex c6Isfile c6Header c6Mtime).map Prod.snd) := by
  refine ⟨by decide, by decide, by decide, by decide⟩

/-! Claim C8: variable declaration validation. -/

/-- C8 counterexample: a declaration with an empty name (and likewise one
with an empty value) is silently skipped by `_parse_variables`, not treated
as a fatal configuration error as the claim requires. -/
theorem spec_C8_counterexample :
    parseVariablesChecked [("", "value")] = Except.ok []
    ∧ parseVariablesChecked [("name", "")] = Except.ok []
    ∧ isErr (parseVariablesChecked [("", "value")]) = false := by
  refine ⟨rfl, rfl, rfl⟩

/-! Claim C8 (amended): validation of non-empty declarations. -/

theorem parseVariablesAux_err :
    ∀ (decls acc : List (String × String)) (k v : String),
      (k, v) ∈ decls → k ≠ "" → v ≠ "" →
      (pyIsAlnum k = false ∨ v.data.any (fun c => reservedChars.contains c) = true) →
      isErr (parseVariablesAux decls acc) = true := by
  intro decls
  induction decls with
  | nil =>
    intro acc k v hmem
    exact absurd hmem (List.not_mem_nil _)
  | cons hd tl ih =>
    intro acc k v hmem hk hv hbad
    obtain ⟨key, value⟩ := hd
    rw [parseVariablesAux]
    split
    · rename_i hskip
      rcases List.mem_cons.mp hmem with heq | hmem'
      · injection heq with h1 h2
        subst h1
        subst h2
        rcases hskip with h | h
        · exact absurd h hk
        · exact absurd h hv
      · exact ih _ _ _ hmem' hk hv hbad
    · split
      · rfl
      · split
        · rfl
        · rename_i hsk hal hres
          rcases List.mem_cons.mp hmem with heq | hmem'
          · injection heq with h1 h2
            subst h1
            subst h2
            rcases hbad with h | h
            · rw [not_not] at hal
              rw [hal] at h
              exact absurd h (by simp)
            · exact absurd h hres
          · exact ih _ _ _ hmem' hk hv hbad

/-- C8 (amended): a declaration with an empty name or empty value is
silently skipped (see the counterexample), but every declaration with
non-empty name and value whose name is not alphanumeric or whose value
contains one of the reserved characters aborts planning fatally, wherever
it sits in the table. -/
theorem spec_C8_validation (decls : List (String × String)) (k v : String)
    (hmem : (k, v) ∈ decls) (hk : k ≠ "") (hv : v ≠ "")
    (hbad : pyIsAlnum k = false ∨ v.data.any (fun c => reservedChars.contains c) = true) :
    isErr (parseVariablesChecked decls) = true :=
  parseVariablesAux_err decls [] k v hmem hk hv hbad

/-- Witness for the amended C8: a reserved character in a later value. -/
theorem spec_C8_witness :
    isErr (parseVariablesChecked [("ok", "1"), ("bad", "x!y")]) = true :=
  spec_C8_validation [("ok", "1"), ("bad", "x!y")] "bad" "x!y"
    (by decide) (by decide) (by decide) (by decide)

/-! Claim C10: basename-based artifact matching. -/

/-- C10: the artifact compared against a script inside
`_try_exclude_unmodified_scripts` (see `tryExcludeAux`) is the first
expected pex path ending with the script's base file name plus `.pex` —
the namespace directory plays no part — so any two scripts sharing a base
file name are matched against the same single artifact path. -/
theorem spec_C10_basename_matching (pexPaths : List String) (s1 s2 : String)
    (hbase : scriptNameOf s1 = scriptNameOf s2) :
    findMatchingPex pexPaths s1 = findMatchingPex pexPaths s2
    ∧ findMatchingPex pexPaths s1 =
      (pexPaths.find? (fun p => strEndsWith p (scriptNameOf s1 ++ ".pex"))).getD "" := by
  constructor
  · rw [findMatchingPex, findMatchingPex, hbase]
  · rw [findMatchingPex]
    cases pexPaths.find? (fun p => strEndsWith p (scriptNameOf s1 ++ ".pex")) <;> rfl

/-- Witness for C10: two scripts named `Foo.psc` under different object
names are both matched against the first artifact ending in `Foo.pex`. -/
theorem spec_C10_witness :
    findMatchingPex ["/out/sub/Foo.pex", "/out/Foo.pex"] "/a/sub/Foo.psc" =
      findMatchingPex ["/out/sub/Foo.pex", "/out/Foo.pex"] "/b/Foo.psc"
    ∧ findMatchingPex ["/out/sub/Foo.pex", "/out/Foo.pex"] "/a/sub/Foo.psc" =
      (["/out/sub/Foo.pex", "/out/Foo.pex"].find?
        (fun p => strEndsWith p (scriptNameOf "/a/sub/Foo.psc" ++ ".pex"))).getD "" :=
  spec_C10_basename_matching ["/out/sub/Foo.pex", "/out/Foo.pex"]
    "/a/sub/Foo.psc" "/b/Foo.psc" (by decide)

/-! Claim C9: explicit import entries. -/

theorem getImportPathsAux_fatal (projectPath : String) (isdir : String → Bool)
    (remoteLocal : String → String) :
    ∀ (nodes acc : List String),
      (∃ t ∈ nodes, ∃ q, stepImport projectPath isdir remoteLocal t = ImportStep.fatal q) →
      isErr (getImportPathsAux projectPath isdir remoteLocal nodes acc) = true := by
  intro nodes
  induction nodes with
  | nil =>
    rintro acc ⟨t, ht, _⟩
    exact absurd ht (List.not_mem_nil _)
  | cons hd tl ih =>
    rintro acc ⟨t, ht, q, hq⟩
    rw [getImportPathsAux]
    cases hstep : stepImport projectPath isdir remoteLocal hd with
    | remote lp =>
      refine ih _ ⟨t, ?_, q, hq⟩
      rcases List.mem_cons.mp ht with heq | hmem
      · subst heq
        rw [hstep] at hq
        exact absurd hq (by simp)
      · exact hmem
    | skipWarn =>
      refine ih _ ⟨t, ?_, q, hq⟩
      rcases List.mem_cons.mp ht with heq | hmem
      · subst heq
        rw [hstep] at hq
        exact absurd hq (by simp)
      · exact hmem
    | okDir p =>
      refine ih _ ⟨t, ?_, q, hq⟩
      rcases List.mem_cons.mp ht with heq | hmem
      · subst heq
        rw [hstep] at hq
        exact absurd hq (by simp)
      · exact hmem
    | fatal p => rfl

/-- C9: processing of one explicit non-remote Import entry — a normalized
text equal to the parent-directory token alone is skipped with a warning;
the current-directory token resolves to the project directory; any other
relative text resolves against the project directory; in each resolving
case the result must be an existing directory or the step is fatal; a
skipped parent-directory entry does not affect the rest of the build,
while any fatal step makes the whole import-path resolution fail. -/
theorem spec_C9_explicit_imports (projectPath : String) (isdir : String → Bool)
    (remoteLocal : String → String) :
    (∀ t, isRemoteText t = false → normpath t = ".." →
      stepImport projectPath isdir remoteLocal t = ImportStep.skipWarn)
    ∧ (∀ t, isRemoteText t = false → normpath t = "." →
      stepImport projectPath isdir remoteLocal t =
        (if isdir projectPath then ImportStep.okDir projectPath
          else ImportStep.fatal projectPath))
    ∧ (∀ t, isRemoteText t = false → isAbs (normpath t) = false →
        normpath t ≠ "." → normpath t ≠ ".." →
      stepImport projectPath isdir remoteLocal t =
        (if isdir (normpath (osJoin projectPath (normpath t))) then
          ImportStep.okDir (normpath (osJoin projectPath (normpath t)))
          else ImportStep.fatal (normpath (osJoin projectPath (normpath t)))))
    ∧ (∀ t rest, isRemoteText t = false → normpath t = ".." →
      getImportPaths projectPath isdir remoteLocal (t :: rest) =
        getImportPaths projectPath isdir remoteLocal rest)
    ∧ (∀ nodes,
      (∃ t ∈ nodes, ∃ q, stepImport projectPath isdir remoteLocal t = ImportStep.fatal q) →
      isErr (getImportPaths projectPath isdir remoteLocal nodes) = true) := by
  have hstep1 : ∀ t, isRemoteText t = false → normpath t = ".." →
      stepImport projectPath isdir remoteLocal t = ImportStep.skipWarn := by
    intro t hr hn
    rw [stepImport, if_neg (by simp [hr])]
    simp [hn]
  refine ⟨hstep1, ?_, ?_, ?_, ?_⟩
  · intro t hr hn
    rw [stepImport, if_neg (by simp [hr])]
    simp only [hn]
    rfl
  · intro t hr habs hdot hpar
    rw [stepImport, if_neg (by simp [hr])]
    simp only [if_neg hpar, if_neg hdot, habs, Bool.false_eq_true, not_false_iff, if_pos]
  · intro t rest hr hn
    rw [getImportPaths, getImportPaths, getImportPathsAux]
    rw [hstep1 t hr hn]
  · exact fun nodes h => getImportPathsAux_fatal projectPath isdir remoteLocal nodes [] h

/-- Witness for C9 at concrete entries: a parent-directory entry is
skipped and harmless, a current-directory entry resolves to the project
directory, and a missing directory is fatal for the whole list. -/
theorem spec_C9_witness :
    stepImport "/proj" (fun s => s = "/proj") (fun _ => "/cache") ".." = ImportStep.skipWarn
    ∧ stepImport "/proj" (fun s => s = "/proj") (fun _ => "/cache") "." =
      (if (fun s => s = "/proj") "/proj" then ImportStep.okDir "/proj"
        else ImportStep.fatal "/proj")
    ∧ getImportPaths "/proj" (fun s => s = "/proj") (fun _ => "/cache") [".."] =
      getImportPaths "/proj" (fun s => s = "/proj") (fun _ => "/cache") []
    ∧ isErr (getImportPaths "/proj" (fun s => s = "/proj") (fun _ => "/cache") ["sub"]) = true :=
  ⟨(spec_C9_explicit_imports "/proj" (fun s => s = "/proj") (fun _ => "/cache")).1 ".."
      (by decide) (by decide),
    (spec_C9_explicit_imports "/proj" (fun s => s = "/proj") (fun _ => "/cache")).2.1 "."
      (by decide) (by decide),
    (spec_C9_explicit_imports "/proj" (fun s => s = "/proj") (fun _ => "/cache")).2.2.2.1 ".." []
      (by decide) (by decide),
    (spec_C9_explicit_imports "/proj" (fun s => s = "/proj") (fun _ => "/cache")).2.2.2.2 ["sub"]
      ⟨"sub", by decide, "/proj/sub", by decide⟩⟩

/-! Claim C3 (amended): two-pass resolution succeeds when every value
references only earlier declarations. -/

theorem lookup_some_of_mem_keys :
    ∀ (d : List (String × TVal)) (n : String), n ∈ d.map Prod.fst →
      ∃ w, d.lookup n = some w := by
  intro d
  induction d with
  | nil =>
    intro n h
    simp at h
  | cons hd tl ih =>
    intro n h
    obtain ⟨k, v⟩ := hd
    by_cases hnk : n = k
    · exact ⟨v, by simp [List.lookup, beq_iff_eq, hnk]⟩
    · rw [List.map_cons, List.mem_cons] at h
      rcases h with h | h
      · exact absurd h hnk
      · obtain ⟨w, hw⟩ := ih n h
        have hbeq : (n == k) = false := beq_eq_false_iff_ne.mpr hnk
        exact ⟨w, by simp [List.lookup, hbeq, hw]⟩

theorem lookup_noRefs :
    ∀ (d : List (String × TVal)) (n : String) (w : TVal),
      (∀ kv ∈ d, noRefs kv.2 = true) → d.lookup n = some w → noRefs w = true := by
  intro d
  induction d with
  | nil =>
    intro n w _ h
    simp [List.lookup] at h
  | cons hd tl ih =>
    intro n w hall h
    obtain ⟨k, v⟩ := hd
    by_cases hnk : n = k
    · simp [List.lookup, beq_iff_eq, hnk] at h
      exact h ▸ hall (k, v) (List.mem_cons_self _ _)
    · have hbeq : (n == k) = false := beq_eq_false_iff_ne.mpr hnk
      simp [List.lookup, hbeq] at h
      exact ih n w (fun kv hkv => hall kv (List.mem_cons_of_mem _ hkv)) h

theorem lookup_append_left :
    ∀ (d e : List (String × TVal)) (n : String), n ∈ d.map Prod.fst →
      (d ++ e).lookup n = d.lookup n := by
  intro d e
  induction d with
  | nil =>
    intro n h
    simp at h
  | cons hd tl ih =>
    intro n h
    obtain ⟨k, v⟩ := hd
    by_cases hnk : n = k
    · simp [List.lookup, beq_iff_eq, hnk]
    · rw [List.map_cons, List.mem_cons] at h
      rcases h with h | h
      · exact absurd h hnk
      · have hbeq : (n == k) = false := beq_eq_false_iff_ne.mpr hnk
        simp only [List.cons_append, List.lookup, hbeq]
        exact ih n h

theorem parseVal_cons (t : List (String × TVal)) (i : TItem) (v : TVal) :
    parseVal t (i :: v) = substItem t i ++ parseVal t v := by
  simp [parseVal]

theorem noRefs_append (a b : TVal) : noRefs (a ++ b) = (noRefs a && noRefs b) :=
  List.all_append

theorem parseVal_noRefs_of :
    ∀ (table : List (String × TVal)) (v : TVal),
      (∀ n ∈ refsIn v, ∃ w, table.lookup n = some w ∧ noRefs w = true) →
      noRefs (parseVal table v) = true := by
  intro table v
  induction v with
  | nil =>
    intro _
    rfl
  | cons item rest ih =>
    intro h
    rw [parseVal_cons, noRefs_append, Bool.and_eq_true]
    cases item with
    | lit s =>
      refine ⟨rfl, ih ?_⟩
      intro n hn
      exact h n hn
    | ref m =>
      obtain ⟨w, hw, hnr⟩ := h m (List.mem_cons_self _ _)
      constructor
      · show noRefs (match table.lookup m with
          | some w => w
          | none => [TItem.ref m]) = true
        rw [hw]
        exact hnr
      · refine ih ?_
        intro n hn
        exact h n (List.mem_cons_of_mem _ hn)

theorem parseVal_noRefs_self :
    ∀ (t : List (String × TVal)) (v : TVal), noRefs v = true →
      noRefs (parseVal t v) = true := by
  intro t v
  induction v with
  | nil =>
    intro _
    rfl
  | cons item rest ih =>
    intro h
    rw [noRefs, List.all_cons, Bool.and_eq_true] at h
    rw [parseVal_cons, noRefs_append, Bool.and_eq_true]
    cases item with
    | lit s => exact ⟨rfl, ih h.2⟩
    | ref m => exact absurd h.1 (by simp)

theorem resolvePass_noRefs :
    ∀ (todo done : List (String × TVal)),
      (∀ kv ∈ done, noRefs kv.2 = true) →
      earlierRefsOnly (done.map Prod.fst) todo = true →
      ∀ kv ∈ resolvePass done todo, noRefs kv.2 = true := by
  intro todo
  induction todo with
  | nil =>
    intro done hdone _ kv hkv
    exact hdone kv hkv
  | cons hd tl ih =>
    intro done hdone hrefs kv hkv
    obtain ⟨k, v⟩ := hd
    rw [earlierRefsOnly, Bool.and_eq_true] at hrefs
    obtain ⟨hv, hrest⟩ := hrefs
    have hv' : ∀ n ∈ refsIn v, n ∈ done.map Prod.fst := by
      intro n hn
      exact of_decide_eq_true (List.all_eq_true.mp hv n hn)
    have hval : noRefs (parseVal (done ++ (k, v) :: tl) v) = true := by
      apply parseVal_noRefs_of
      intro n hn
      have hmemk := hv' n hn
      obtain ⟨w, hw⟩ := lookup_some_of_mem_keys done n hmemk
      refine ⟨w, ?_, lookup_noRefs done n w hdone hw⟩
      rw [lookup_append_left done ((k, v) :: tl) n hmemk, hw]
    rw [resolvePass] at hkv
    refine ih (done ++ [(k, parseVal (done ++ (k, v) :: tl) v)]) ?_ ?_ kv hkv
    · intro kv' hkv'
      rcases List.mem_append.mp hkv' with h | h
      · exact hdone kv' h
      · rw [List.mem_singleton.mp h]
        exact hval
    · simpa using hrest

theorem resolveRevGo_noRefs :
    ∀ (i : Nat) (t : List (String × TVal)),
      (∀ kv ∈ t, noRefs kv.2 = true) → ∀ kv ∈ resolveRevGo i t, noRefs kv.2 = true := by
  intro i
  induction i with
  | zero =>
    intro t h kv hkv
    exact h kv hkv
  | succ i ih =>
    intro t h kv hkv
    rw [resolveRevGo] at hkv
    refine ih _ ?_ kv hkv
    intro kv' hkv'
    rcases List.mem_or_eq_of_mem_set hkv' with h' | h'
    · exact h kv' h'
    · subst h'
      apply parseVal_noRefs_self
      by_cases hlen : i < t.length
      · have hmem : t.getD i ("", []) ∈ t := by
          rw [List.getD_eq_getElem t ("", []) hlen]
          exact List.getElem_mem hlen
        exact h _ hmem
      · rw [List.getD_eq_default]
        · rfl
        · omega

/-- C3 (amended): the two-pass scheme is not order-independent (see the
counterexample), but whenever the declaration order is such that every
value references only variables declared strictly earlier, the two passes
leave every variable fully resolved, with no substitution token
remaining. -/
theorem spec_C3_two_pass_resolves (t : List (String × TVal))
    (h : earlierRefsOnly [] t = true) :
    ∀ kv ∈ twoPassResolve t, noRefs kv.2 = true := by
  intro kv hkv
  rw [twoPassResolve, resolveRev] at hkv
  refine resolveRevGo_noRefs _ _ ?_ kv hkv
  intro kv' hkv'
  exact resolvePass_noRefs t [] (fun kv'' hkv'' => absurd hkv'' (List.not_mem_nil _)) h kv' hkv'

/-- Witness for the amended C3: the chain declared leaves-first resolves;
variable A (last entry) ends fully resolved. -/
theorem spec_C3_witness :
    earlierRefsOnly [] c3TableGood = true
    ∧ noRefs ((twoPassResolve c3TableGood).getD 4 ("", [])).2 = true :=
  ⟨by decide,
    spec_C3_two_pass_resolves c3TableGood (by decide)
      ((twoPassResolve c3TableGood).getD 4 ("", [])) (by decide)⟩

/-! Claim C4 (amended): root-list discipline of the individual steps. -/

theorem uniqify_sub :
    ∀ (l acc : List String) (x : String),
      x ∈ l.foldl
        (fun acc p => if acc.any (fun q => casefold q = casefold p) then acc else acc ++ [p])
        acc →
      x ∈ acc ∨ x ∈ l := by
  intro l
  induction l with
  | nil =>
    intro acc x h
    exact Or.inl h
  | cons p tl ih =>
    intro acc x h
    rw [List.foldl_cons] at h
    rcases ih _ x h with h' | h'
    · split at h'
      · exact Or.inl h'
      · rcases List.mem_append.mp h' with h'' | h''
        · exact Or.inl h''
        · rw [List.mem_singleton.mp h'']
          exact Or.inr (List.mem_cons_self p tl)
    · exact Or.inr (List.mem_cons_of_mem _ h')

theorem uniqify_casefold_nodup :
    ∀ (l acc : List String), ((acc.map casefold).Nodup) →
      (((l.foldl
        (fun acc p => if acc.any (fun q => casefold q = casefold p) then acc else acc ++ [p])
        acc).map casefold).Nodup) := by
  intro l
  induction l with
  | nil =>
    intro acc h
    exact h
  | cons p tl ih =>
    intro acc h
    rw [List.foldl_cons]
    refine ih _ ?_
    split
    · exact h
    · rename_i hnone
      rw [List.map_append]
      have hnotin : casefold p ∉ acc.map casefold := by
        intro hcon
        obtain ⟨q, hq, hqe⟩ := List.mem_map.mp hcon
        exact hnone (List.any_eq_true.mpr ⟨q, hq, decide_eq_true hqe⟩)
      have hperm : (acc.map casefold ++ [casefold p]).Perm (casefold p :: acc.map casefold) :=
        List.perm_append_singleton _ _
      refine hperm.nodup_iff.mpr ?_
      exact List.nodup_cons.mpr ⟨hnotin, h⟩

theorem implicitFolderAux_sub (projectPath : String) (isdir : String → Bool)
    (importPaths : List String) :
    ∀ (folders : List String) (acc : List String) (x : String),
      x ∈ implicitFolderAux projectPath isdir importPaths folders acc →
      x ∈ acc ∨ x ∉ importPaths := by
  intro folders
  induction folders with
  | nil =>
    intro acc x h
    exact Or.inl h
  | cons t tl ih =>
    intro acc x h
    simp only [implicitFolderAux] at h
    split at h
    · split at h
      · rename_i hcond
        rcases ih _ x h with h' | h'
        · rcases List.mem_append.mp h' with h'' | h''
          · exact Or.inl h''
          · rw [List.mem_singleton.mp h'']
            exact Or.inr hcond.2
        · exact Or.inr h'
      · exact ih _ x h
    · split at h
      · rename_i hcond
        rcases ih _ x h with h' | h'
        · rcases List.mem_append.mp h' with h'' | h''
          · exact Or.inl h''
          · rw [List.mem_singleton.mp h'']
            exact Or.inr hcond.2
        · exact Or.inr h'
      · exact ih _ x h

/-- C4 (amended): the explicit and implicit steps are append-only with
de-duplication — `uniqify` keeps only case-insensitively distinct roots and
only roots drawn from its input, and every root proposed by
`_get_implicit_folder_imports` is absent from the current root list — but
the remote branch of `_get_script_paths_from_folders_node` prepends the
fetched local path to the shared list with no duplicate check, so the
sequence as a whole is neither append-only nor duplicate-free (see the
counterexample). -/
theorem spec_C4_root_discipline :
    (∀ (projectPath : String) (isdir : String → Bool) (importPaths folders : List String)
        (p : String),
      p ∈ getImplicitFolderImports projectPath isdir importPaths folders → p ∉ importPaths)
    ∧ (∀ l : List String, ((uniqify l).map casefold).Nodup)
    ∧ (∀ (l : List String) (p : String), p ∈ uniqify l → p ∈ l)
    ∧ (∀ (remoteLocal : String → String) (importPaths : List String) (t : String),
      t ≠ ".." → t ≠ "." → isRemoteText t = true →
      foldersNodeImportEffect remoteLocal [t] importPaths =
        remoteLocal t :: importPaths) := by
  refine ⟨?_, ?_, ?_, ?_⟩
  · intro projectPath isdir importPaths folders p hp
    rw [getImplicitFolderImports] at hp
    rcases uniqify_sub _ _ _ hp with h | h
    · exact absurd h (List.not_mem_nil _)
    · rcases implicitFolderAux_sub projectPath isdir importPaths folders [] p h with h' | h'
      · exact absurd h' (List.not_mem_nil _)
      · exact h'
  · intro l
    exact uniqify_casefold_nodup l [] List.nodup_nil
  · intro l p hp
    rcases uniqify_sub l [] p hp with h | h
    · exact absurd h (List.not_mem_nil _)
    · exact h
  · intro remoteLocal importPaths t h1 h2 h3
    rw [foldersNodeImportEffect, if_neg h1, if_neg h2, if_pos h3]
    rfl

/-- Witness for the amended C4: an implicit folder proposal avoids existing
roots, and a remote folder root is prepended. -/
theorem spec_C4_witness :
    ("/proj/y" ∈ getImplicitFolderImports "/proj" (fun _ => true) ["/x"] ["y"] →
      "/proj/y" ∉ ["/x"])
    ∧ foldersNodeImportEffect (fun _ => "/cache") ["https://remote.example"] ["/a"] =
      "/cache" :: ["/a"] :=
  ⟨spec_C4_root_discipline.1 "/proj" (fun _ => true) ["/x"] ["y"] "/proj/y",
    spec_C4_root_discipline.2.2.2 (fun _ => "/cache") ["/a"] "https://remote.example"
      (by decide) (by decide) (by decide)⟩

end Pyro
